import Mathlib

/-!
# Verification of the bignum256 engine (src/src/crypto/bignum.c)

A `bignum256` is an array of nine 32-bit values, digits in base `2^30`,
least significant limb first.  We model a limb array as a `List ℕ`
(each limb semantically a `uint32`; wherever C unsigned arithmetic can
wrap we reduce explicitly modulo `2^32` resp. `2^64`), and each C
function as a Lean function on limb lists, following the source loop
for loop.  C unsigned subtraction `a - b` is rendered as
`(a + (2^64 - b % 2^64)) % 2^64` (two's-complement addition), and the
C operators `&`, `|`, `^`, `<<`, `>>` as `&&&`, `|||`, `^^^`, `<<<`,
`>>>` on `ℕ` with explicit truncation where the C type would truncate.
-/

namespace Bignum

/-- The value represented by a limb list in base `2^30`
(least significant limb first): `Σ val[i] * 2^(30 i)`. -/
def bnVal : List Nat → Nat
  | [] => 0
  | a :: r => a + 2 ^ 30 * bnVal r

/-- Every limb is strictly below `2^30` (the *normalized* invariant). -/
def NormLimbs (v : List Nat) : Prop := ∀ x ∈ v, x < 2 ^ 30

instance (v : List Nat) : Decidable (NormLimbs v) := by
  unfold NormLimbs; infer_instance

/-- A normalized `bignum256`: nine limbs, each below `2^30`. -/
def Normal (v : List Nat) : Prop := v.length = 9 ∧ NormLimbs v

instance (v : List Nat) : Decidable (Normal v) := by
  unfold Normal; infer_instance

/-! ## Basic value lemmas -/

theorem bnVal_nil : bnVal [] = 0 := rfl

theorem bnVal_cons (a : Nat) (r : List Nat) :
    bnVal (a :: r) = a + 2 ^ 30 * bnVal r := rfl

theorem bnVal_append (u v : List Nat) :
    bnVal (u ++ v) = bnVal u + 2 ^ (30 * u.length) * bnVal v := by
  induction u with
  | nil => simp [bnVal]
  | cons a r ih =>
      simp only [List.cons_append, bnVal_cons, ih, List.length_cons]
      ring

theorem bnVal_lt (v : List Nat) (h : NormLimbs v) :
    bnVal v < 2 ^ (30 * v.length) := by
  induction v with
  | nil => simp [bnVal]
  | cons a r ih =>
      have ha : a < 2 ^ 30 := h a (List.mem_cons_self a r)
      have hr : bnVal r < 2 ^ (30 * r.length) :=
        ih (fun x hx => h x (List.mem_cons_of_mem a hx))
      have : 2 ^ (30 * (a :: r).length) = 2 ^ 30 * 2 ^ (30 * r.length) := by
        rw [← pow_add]; congr 1; simp [List.length_cons]; ring
      rw [this, bnVal_cons]
      calc a + 2 ^ 30 * bnVal r < 2 ^ 30 * (bnVal r + 1) := by omega
        _ ≤ 2 ^ 30 * 2 ^ (30 * r.length) := by
              have : bnVal r + 1 ≤ 2 ^ (30 * r.length) := by omega
              exact Nat.mul_le_mul_left _ this

/-- Two normalized limb lists of equal length with equal value are equal. -/
theorem bnVal_inj : ∀ (u v : List Nat), u.length = v.length →
    NormLimbs u → NormLimbs v → bnVal u = bnVal v → u = v
  | [], [], _, _, _, _ => rfl
  | a :: r, b :: s, hlen, hu, hv, hval => by
      have ha : a < 2 ^ 30 := hu a (List.mem_cons_self a r)
      have hb : b < 2 ^ 30 := hv b (List.mem_cons_self b s)
      simp only [bnVal_cons] at hval
      have hab : a = b ∧ bnVal r = bnVal s := by
        constructor
        · omega
        · omega
      have := bnVal_inj r s (by simpa using hlen)
        (fun x hx => hu x (List.mem_cons_of_mem a hx))
        (fun x hx => hv x (List.mem_cons_of_mem b hx)) hab.2
      rw [hab.1, this]

/-! ## Comparison predicates

`bn_is_zero`, `bn_is_less`, `bn_is_equal` from the source: each folds a
bitmask over all nine limbs and tests the accumulated mask at the end. -/

/-- `bn_is_zero`: `result |= a->val[i]` over all limbs, returns `!result`. -/
def bn_is_zero (a : List Nat) : Bool :=
  decide ((a.foldl (fun result x => result ||| x) 0) = 0)

/-- The loop of `bn_is_less`: for `i = 8` down to `0`,
`res1 = (res1 << 1) | (a->val[i] < b->val[i])` and
`res2 = (res2 << 1) | (a->val[i] > b->val[i])`.  The argument list is
the (a,b) limb pairs ordered most significant first. -/
def lessLoop : List (Nat × Nat) → Nat × Nat → Nat × Nat
  | [], r => r
  | (a, b) :: rest, (r1, r2) =>
      lessLoop rest
        ((r1 <<< 1) ||| (if a < b then 1 else 0),
         (r2 <<< 1) ||| (if a > b then 1 else 0))

/-- `bn_is_less`: accumulate the two comparison masks most significant
limb first, then decide `res1 > res2`. -/
def bn_is_less (a b : List Nat) : Bool :=
  let r := lessLoop (a.zip b).reverse (0, 0)
  decide (r.1 > r.2)

/-- `bn_is_equal`: `result |= a->val[i] ^ b->val[i]`, returns `!result`. -/
def bn_is_equal (a b : List Nat) : Bool :=
  decide (((a.zip b).foldl (fun result p => result ||| (p.1 ^^^ p.2)) 0) = 0)

/-- `bn_cmov`: `res->val[i] = (true->val[i] & tmask) | (false->val[i] & fmask)`
with `tmask = (uint32_t)(-cond)`, `fmask = ~tmask`. -/
def bn_cmov (cond : Nat) (tc fc : List Nat) : List Nat :=
  let tmask := (2 ^ 32 - cond % 2 ^ 32) % 2 ^ 32
  let fmask := tmask ^^^ 0xFFFFFFFF
  (tc.zip fc).map (fun p => (p.1 &&& tmask) ||| (p.2 &&& fmask))

/-! ## Subtraction -/

/-- The loop of `bn_subtract`:
`tmp += 0x3FFFFFFF + a->val[i] - b->val[i]` in `uint32` arithmetic,
`res->val[i] = tmp & 0x3FFFFFFF`, `tmp >>= 30`. -/
def subLoop : List Nat → List Nat → Nat → List Nat
  | a :: as_, b :: bs, tmp =>
      let t := (tmp + 0x3FFFFFFF + a + (2 ^ 32 - b % 2 ^ 32)) % 2 ^ 32
      (t &&& 0x3FFFFFFF) :: subLoop as_ bs (t >>> 30)
  | _, _, _ => []

/-- `bn_subtract`: `res = a - b` by borrow-free biased addition
(initial carry 1, bias `0x3FFFFFFF` per limb). -/
def bn_subtract (a b : List Nat) : List Nat := subLoop a b 1

/-- `bn_mod`: one constant-time conditional subtraction of the prime:
`flag = bn_is_less x prime`, `temp = x - prime`,
`x = bn_cmov flag x temp`. -/
def bn_mod (x prime : List Nat) : List Nat :=
  let flag := bn_is_less x prime
  let temp := bn_subtract x prime
  bn_cmov (if flag then 1 else 0) x temp

/-! ## Byte input/output

32-byte buffers are modelled as lists of bytes (each `< 2^8`), index 0
first in memory.  `read_be`/`write_be` and `read_le`/`write_le` are the
word helpers from the source; the `bn_` functions follow the source
loops, with the C `uint32` shifts truncated modulo `2^32` and the
`uint8_t` stores truncated modulo `2^8`. -/

/-- C `read_be(data)`: big-endian 32-bit word at byte offset `o`. -/
def read_be (data : List Nat) (o : Nat) : Nat :=
  (data.getD o 0 <<< 24) ||| (data.getD (o + 1) 0 <<< 16) |||
    (data.getD (o + 2) 0 <<< 8) ||| data.getD (o + 3) 0

/-- C `write_be(data, x)`: the four bytes stored for word `x`,
most significant first (each store truncates to `uint8_t`). -/
def write_be (x : Nat) : List Nat :=
  [(x >>> 24) % 2 ^ 8, (x >>> 16) % 2 ^ 8, (x >>> 8) % 2 ^ 8, x % 2 ^ 8]

/-- C `read_le(data)`: little-endian 32-bit word at byte offset `o`. -/
def read_le (data : List Nat) (o : Nat) : Nat :=
  (data.getD (o + 3) 0 <<< 24) ||| (data.getD (o + 2) 0 <<< 16) |||
    (data.getD (o + 1) 0 <<< 8) ||| data.getD o 0

/-- C `write_le(data, x)`: the four bytes stored for word `x`,
least significant first. -/
def write_le (x : Nat) : List Nat :=
  [x % 2 ^ 8, (x >>> 8) % 2 ^ 8, (x >>> 16) % 2 ^ 8, (x >>> 24) % 2 ^ 8]

/-- `bn_read_be`: for `i = 0..7` read word `i` at offset `(7-i)*4`,
`temp |= limb << (2*i)` (a `uint32` shift), `val[i] = temp & 0x3FFFFFFF`,
`temp = limb >> (30 - 2*i)`; finally `val[8] = temp`. -/
def bn_read_be (inp : List Nat) : List Nat :=
  let st := (List.range 8).foldl
    (fun (st : List Nat × Nat) i =>
      let limb := read_be inp ((7 - i) * 4)
      let temp := st.2 ||| ((limb <<< (2 * i)) % 2 ^ 32)
      (st.1 ++ [temp &&& 0x3FFFFFFF], limb >>> (30 - 2 * i)))
    ([], 0)
  st.1 ++ [st.2]

/-- `bn_write_be`: `temp = val[8]`; for `i = 0..7`:
`limb = val[7-i]`, `temp = (temp << (16 + 2*i)) | (limb >> (14 - 2*i))`
(`uint32` arithmetic), write word `temp` big-endian at offset `i*4`,
`temp = limb`. -/
def bn_write_be (x : List Nat) : List Nat :=
  ((List.range 8).foldl
    (fun (st : List Nat × Nat) i =>
      let limb := x.getD (7 - i) 0
      let temp := ((st.2 <<< (16 + 2 * i)) % 2 ^ 32) ||| (limb >>> (14 - 2 * i))
      (st.1 ++ write_be temp, limb))
    ([], x.getD 8 0)).1

/-- `bn_read_le`: same loop as `bn_read_be`, reading word `i`
little-endian at offset `i*4`. -/
def bn_read_le (inp : List Nat) : List Nat :=
  let st := (List.range 8).foldl
    (fun (st : List Nat × Nat) i =>
      let limb := read_le inp (i * 4)
      let temp := st.2 ||| ((limb <<< (2 * i)) % 2 ^ 32)
      (st.1 ++ [temp &&& 0x3FFFFFFF], limb >>> (30 - 2 * i)))
    ([], 0)
  st.1 ++ [st.2]

/-- `bn_write_le`: same loop as `bn_write_be`, writing word `i`
little-endian at offset `(7-i)*4` (so successive words are prepended). -/
def bn_write_le (x : List Nat) : List Nat :=
  ((List.range 8).foldl
    (fun (st : List Nat × Nat) i =>
      let limb := x.getD (7 - i) 0
      let temp := ((st.2 <<< (16 + 2 * i)) % 2 ^ 32) ||| (limb >>> (14 - 2 * i))
      (write_le temp ++ st.1, limb))
    ([], x.getD 8 0)).1

/-- Value of a big-endian byte string (index 0 most significant). -/
def beVal (bytes : List Nat) : Nat :=
  bytes.foldl (fun acc b => acc * 2 ^ 8 + b) 0

/-- Value of a little-endian byte string (index 0 least significant). -/
def leVal : List Nat → Nat
  | [] => 0
  | b :: r => b + 2 ^ 8 * leVal r

/-! ## Correctness of the comparison predicates -/

theorem or_eq_zero (x y : Nat) : x ||| y = 0 ↔ x = 0 ∧ y = 0 := by
  constructor
  · intro h
    constructor
    · exact Nat.zero_of_testBit_eq_false (fun i => by
        have := congrArg (fun z => z.testBit i) h
        simp only [Nat.testBit_or, Nat.zero_testBit, Bool.or_eq_false_iff] at this
        exact this.1)
    · exact Nat.zero_of_testBit_eq_false (fun i => by
        have := congrArg (fun z => z.testBit i) h
        simp only [Nat.testBit_or, Nat.zero_testBit, Bool.or_eq_false_iff] at this
        exact this.2)
  · rintro ⟨rfl, rfl⟩; rfl

theorem foldl_or_eq_zero (l : List Nat) :
    ∀ r : Nat, (l.foldl (fun result x => result ||| x) r = 0) ↔
      (r = 0 ∧ ∀ x ∈ l, x = 0) := by
  induction l with
  | nil => simp
  | cons a rest ih =>
      intro r
      simp only [List.foldl_cons, ih, List.mem_cons, or_eq_zero]
      constructor
      · rintro ⟨⟨h1, h2⟩, hall⟩
        exact ⟨h1, fun x hx => by
          rcases hx with rfl | hx
          · exact h2
          · exact hall x hx⟩
      · rintro ⟨rfl, hall⟩
        exact ⟨⟨rfl, hall a (Or.inl rfl)⟩, fun x hx => hall x (Or.inr hx)⟩

theorem mem_zip_self {a : List Nat} {p : Nat × Nat} (hp : p ∈ a.zip a) :
    p.1 = p.2 := by
  induction a with
  | nil => simp [List.zip] at hp
  | cons x r ih =>
      rw [List.zip_cons_cons, List.mem_cons] at hp
      rcases hp with rfl | hp
      · rfl
      · exact ih hp

theorem bn_is_equal_iff (a b : List Nat) (hlen : a.length = b.length) :
    bn_is_equal a b = true ↔ a = b := by
  unfold bn_is_equal
  rw [decide_eq_true_iff, ← List.foldl_map, foldl_or_eq_zero]
  simp only [true_and]
  constructor
  · intro h
    apply List.ext_getElem hlen
    intro i h1 h2
    have hi : i < (a.zip b).length := by
      rw [List.length_zip]; omega
    have hmem : a[i] ^^^ b[i] ∈ (a.zip b).map (fun p => p.1 ^^^ p.2) := by
      refine List.mem_map.mpr ⟨(a.zip b)[i], List.getElem_mem _, ?_⟩
      rw [List.getElem_zip]
    have := h _ hmem
    exact Nat.xor_eq_zero.mp this
  · rintro rfl
    intro x hx
    rcases List.mem_map.mp hx with ⟨p, hp, rfl⟩
    rw [mem_zip_self hp]
    simp

theorem or_bit (r c : Nat) (hc : c < 2) : (r <<< 1) ||| c = 2 * r + c := by
  rw [Nat.shiftLeft_eq]
  have h : c < 2 ^ 1 := by simpa using hc
  calc r * 2 ^ 1 ||| c = 2 ^ 1 * r ||| c := by rw [mul_comm]
    _ = 2 ^ 1 * r + c := (Nat.mul_add_lt_is_or h r).symm
    _ = 2 * r + c := by ring

/-- One step of the `bn_is_less` mask accumulation, written arithmetically. -/
theorem lessLoop_cons (a b : Nat) (rest : List (Nat × Nat)) (r1 r2 : Nat) :
    lessLoop ((a, b) :: rest) (r1, r2) =
      lessLoop rest
        (2 * r1 + (if a < b then 1 else 0), 2 * r2 + (if a > b then 1 else 0)) := by
  have e1 : (r1 <<< 1) ||| (if a < b then 1 else 0) =
      2 * r1 + (if a < b then 1 else 0) := or_bit _ _ (by split <;> omega)
  have e2 : (r2 <<< 1) ||| (if a > b then 1 else 0) =
      2 * r2 + (if a > b then 1 else 0) := or_bit _ _ (by split <;> omega)
  simp only [lessLoop, e1, e2]

theorem lessLoop_bound (l : List (Nat × Nat)) :
    (lessLoop l (0, 0)).1 < 2 ^ l.length ∧ (lessLoop l (0, 0)).2 < 2 ^ l.length ∧
    ∀ r1 r2 : Nat, lessLoop l (r1, r2) =
      (r1 * 2 ^ l.length + (lessLoop l (0, 0)).1,
       r2 * 2 ^ l.length + (lessLoop l (0, 0)).2) := by
  induction l with
  | nil => exact ⟨by simp [lessLoop], by simp [lessLoop], by simp [lessLoop]⟩
  | cons p rest ih =>
      obtain ⟨a, b⟩ := p
      obtain ⟨ih1, ih2, ihsplit⟩ := ih
      have hzero : lessLoop ((a, b) :: rest) (0, 0) =
          ((if a < b then 1 else 0) * 2 ^ rest.length + (lessLoop rest (0, 0)).1,
           (if a > b then 1 else 0) * 2 ^ rest.length + (lessLoop rest (0, 0)).2) := by
        rw [lessLoop_cons]
        simpa using ihsplit (if a < b then 1 else 0) (if a > b then 1 else 0)
      refine ⟨?_, ?_, ?_⟩
      · rw [hzero]
        simp only [List.length_cons, pow_succ]
        have : (if a < b then 1 else 0) ≤ 1 := by split <;> norm_num
        nlinarith [ih1]
      · rw [hzero]
        simp only [List.length_cons, pow_succ]
        have : (if a > b then 1 else 0) ≤ 1 := by split <;> norm_num
        nlinarith [ih2]
      · intro r1 r2
        rw [lessLoop_cons, ihsplit, hzero]
        simp only [List.length_cons, pow_succ, Prod.mk.injEq]
        constructor <;> ring

/-- Lexicographic strict order on a list of limb pairs, most significant
pair first: the first differing pair decides. -/
def lexLt : List (Nat × Nat) → Prop
  | [] => False
  | (a, b) :: rest => a < b ∨ (a = b ∧ lexLt rest)

instance : ∀ l : List (Nat × Nat), Decidable (lexLt l)
  | [] => by unfold lexLt; infer_instance
  | (a, b) :: rest => by
      unfold lexLt
      have := instDecidableLexLt rest
      infer_instance

theorem lessLoop_lexLt (l : List (Nat × Nat)) :
    (lessLoop l (0, 0)).1 > (lessLoop l (0, 0)).2 ↔ lexLt l := by
  induction l with
  | nil => simp [lessLoop, lexLt]
  | cons p rest ih =>
      obtain ⟨a, b⟩ := p
      obtain ⟨h1, h2, hsplit⟩ := lessLoop_bound rest
      rw [lessLoop_cons]
      simp only [Nat.mul_zero, Nat.zero_add]
      rw [hsplit]
      show ((if a < b then 1 else 0) * 2 ^ rest.length + (lessLoop rest (0, 0)).1 >
        (if a > b then 1 else 0) * 2 ^ rest.length + (lessLoop rest (0, 0)).2) ↔ _
      unfold lexLt
      rw [← ih]
      rcases Nat.lt_trichotomy a b with hab | hab | hab
      · simp only [if_pos hab, if_neg (by omega : ¬ a > b)]
        omega
      · simp only [if_neg (by omega : ¬ a < b), if_neg (by omega : ¬ a > b)]
        omega
      · simp only [if_neg (by omega : ¬ a < b), if_pos hab]
        omega

/-- Value of a limb list read most significant limb first. -/
def msbVal : List Nat → Nat
  | [] => 0
  | d :: r => d * 2 ^ (30 * r.length) + msbVal r

theorem msbVal_append (u v : List Nat) :
    msbVal (u ++ v) = msbVal u * 2 ^ (30 * v.length) + msbVal v := by
  induction u with
  | nil => simp [msbVal]
  | cons d r ih =>
      simp only [List.cons_append, msbVal, ih, List.append_eq, List.length_append]
      rw [Nat.mul_add, pow_add]
      ring

theorem msbVal_reverse (l : List Nat) : msbVal l.reverse = bnVal l := by
  induction l with
  | nil => rfl
  | cons a r ih =>
      rw [bnVal_cons, List.reverse_cons, msbVal_append, ih]
      simp [msbVal]
      ring

theorem msbVal_lt (v : List Nat) (h : ∀ x ∈ v, x < 2 ^ 30) :
    msbVal v < 2 ^ (30 * v.length) := by
  have := bnVal_lt v.reverse (by intro x hx; exact h x (List.mem_reverse.mp hx))
  rw [← List.reverse_reverse v, msbVal_reverse] at *
  simpa using this

theorem lexLt_iff_msbVal (pl : List (Nat × Nat))
    (h : ∀ p ∈ pl, p.1 < 2 ^ 30 ∧ p.2 < 2 ^ 30) :
    lexLt pl ↔ msbVal (pl.map Prod.fst) < msbVal (pl.map Prod.snd) := by
  induction pl with
  | nil => simp [lexLt, msbVal]
  | cons p rest ih =>
      obtain ⟨a, b⟩ := p
      have ha : a < 2 ^ 30 := (h (a, b) (List.mem_cons_self _ _)).1
      have hb : b < 2 ^ 30 := (h (a, b) (List.mem_cons_self _ _)).2
      have hfst : msbVal (rest.map Prod.fst) < 2 ^ (30 * rest.length) := by
        have := msbVal_lt (rest.map Prod.fst) (by
          intro x hx
          rcases List.mem_map.mp hx with ⟨q, hq, rfl⟩
          exact (h q (List.mem_cons_of_mem _ hq)).1)
        simpa using this
      have hsnd : msbVal (rest.map Prod.snd) < 2 ^ (30 * rest.length) := by
        have := msbVal_lt (rest.map Prod.snd) (by
          intro x hx
          rcases List.mem_map.mp hx with ⟨q, hq, rfl⟩
          exact (h q (List.mem_cons_of_mem _ hq)).2)
        simpa using this
      have ihr := ih (fun q hq => h q (List.mem_cons_of_mem _ hq))
      unfold lexLt
      simp only [List.map_cons, msbVal, List.length_map]
      rcases Nat.lt_trichotomy a b with hab | hab | hab
      · constructor
        · intro _; nlinarith
        · intro _; exact Or.inl hab
      · subst hab
        constructor
        · rintro (h' | ⟨_, h'⟩)
          · omega
          · have := ihr.mp h'; omega
        · intro h'
          right
          exact ⟨rfl, ihr.mpr (by omega)⟩
      · constructor
        · rintro (h' | ⟨h', _⟩) <;> omega
        · intro h'; exfalso; nlinarith

/-- `bn_is_less` decides strict order of the represented values
(for normalized operands of equal length). -/
theorem bn_is_less_iff (a b : List Nat) (hlen : a.length = b.length)
    (ha : NormLimbs a) (hb : NormLimbs b) :
    bn_is_less a b = true ↔ bnVal a < bnVal b := by
  unfold bn_is_less
  rw [decide_eq_true_iff, lessLoop_lexLt]
  have hpairs : ∀ p ∈ (a.zip b).reverse, p.1 < 2 ^ 30 ∧ p.2 < 2 ^ 30 := by
    intro p hp
    rcases List.of_mem_zip (List.mem_reverse.mp hp) with ⟨h1, h2⟩
    exact ⟨ha _ h1, hb _ h2⟩
  rw [lexLt_iff_msbVal _ hpairs]
  have hfst : ((a.zip b).reverse.map Prod.fst) = a.reverse := by
    rw [List.map_reverse, List.map_fst_zip _ _ (by omega)]
  have hsnd : ((a.zip b).reverse.map Prod.snd) = b.reverse := by
    rw [List.map_reverse, List.map_snd_zip _ _ (by omega)]
  rw [hfst, hsnd, msbVal_reverse, msbVal_reverse]

/-! ## Correctness of `bn_subtract` -/

theorem subLoop_spec : ∀ (a b : List Nat) (tmp : Nat), a.length = b.length →
    NormLimbs a → NormLimbs b → tmp ≤ 1 →
    (subLoop a b tmp).length = a.length ∧ NormLimbs (subLoop a b tmp) ∧
    ∃ c : Nat, c ≤ 1 ∧ (bnVal (subLoop a b tmp) : ℤ) =
      tmp + bnVal a - bnVal b + (1 - (c : ℤ)) * 2 ^ (30 * a.length) - 1
  | [], [], tmp, _, _, _, htmp => by
      refine ⟨rfl, by intro x hx; simp [subLoop] at hx, tmp, htmp, ?_⟩
      simp only [subLoop, bnVal, List.length_nil, Nat.mul_zero, pow_zero]
      push_cast
      omega
  | x :: xs, y :: ys, tmp, hlen, ha, hb, htmp => by
      have hx : x < 2 ^ 30 := ha x (List.mem_cons_self _ _)
      have hy : y < 2 ^ 30 := hb y (List.mem_cons_self _ _)
      have hlen' : xs.length = ys.length := by simpa using hlen
      have ha' : NormLimbs xs := fun z hz => ha z (List.mem_cons_of_mem _ hz)
      have hb' : NormLimbs ys := fun z hz => hb z (List.mem_cons_of_mem _ hz)
      simp only [subLoop]
      set t := (tmp + 0x3FFFFFFF + x + (2 ^ 32 - y % 2 ^ 32)) % 2 ^ 32 with hdef
      have ht : t + y = tmp + 0x3FFFFFFF + x := by
        rw [hdef]; omega
      have ht31 : t < 2 ^ 31 := by omega
      have hshift : t >>> 30 = t / 2 ^ 30 := Nat.shiftRight_eq_div_pow t 30
      have hshift1 : t >>> 30 ≤ 1 := by rw [hshift]; omega
      have hmask : t &&& 0x3FFFFFFF = t % 2 ^ 30 := by
        have h30 : (0x3FFFFFFF : Nat) = 2 ^ 30 - 1 := by norm_num
        rw [h30, Nat.and_pow_two_sub_one_eq_mod]
      obtain ⟨ihlen, ihnorm, c, hc, ihval⟩ :=
        subLoop_spec xs ys (t >>> 30) hlen' ha' hb' hshift1
      refine ⟨by simpa using ihlen, ?_, c, hc, ?_⟩
      · intro z hz
        rcases List.mem_cons.mp hz with rfl | hz
        · rw [hmask]; omega
        · exact ihnorm z hz
      · rw [hshift] at ihval
        rw [bnVal_cons, bnVal_cons, bnVal_cons, hmask]
        have hsplit : (2 : ℤ) ^ (30 * (x :: xs).length) =
            2 ^ 30 * 2 ^ (30 * xs.length) := by
          rw [List.length_cons, Nat.mul_add, Nat.mul_one, pow_add]
          ring
        rw [hsplit]
        rcases (by omega : c = 0 ∨ c = 1) with rfl | rfl <;>
        · rw [hshift]
          omega

set_option maxRecDepth 10000 in
/-- `bn_subtract` on normalized nine-limb inputs: the result is
normalized and equals `a - b` modulo `2^270` (the full width of the
nine-limb representation); no borrow is signalled. -/
theorem bn_subtract_spec (a b : List Nat) (ha : Normal a) (hb : Normal b) :
    Normal (bn_subtract a b) ∧
    (bnVal (bn_subtract a b) : ℤ) = ((bnVal a : ℤ) - bnVal b) % 2 ^ 270 := by
  obtain ⟨halen, hanorm⟩ := ha
  obtain ⟨hblen, hbnorm⟩ := hb
  obtain ⟨hlen, hnorm, c, hc, hval⟩ :=
    subLoop_spec a b 1 (by omega) hanorm hbnorm (le_refl 1)
  have hexp : 30 * 9 = 270 := by norm_num
  have hA := bnVal_lt a hanorm
  have hB := bnVal_lt b hbnorm
  rw [halen, hexp] at hA hval
  rw [halen] at hlen
  rw [hblen, hexp] at hB
  have hout : bnVal (subLoop a b 1) < 2 ^ 270 := by
    have h := bnVal_lt (subLoop a b 1) hnorm
    rw [hlen, hexp] at h
    exact h
  unfold bn_subtract
  refine ⟨⟨by omega, hnorm⟩, ?_⟩
  rcases (by omega : c = 0 ∨ c = 1) with rfl | rfl <;> omega

/-! ## Correctness of `bn_cmov` -/

theorem bn_cmov_one : ∀ (t f : List Nat), t.length = f.length →
    (∀ z ∈ t, z < 2 ^ 32) → bn_cmov 1 t f = t
  | [], [], _, _ => rfl
  | x :: xs, y :: ys, hlen, ht => by
      have hx : x < 2 ^ 32 := ht x (List.mem_cons_self _ _)
      have ih := bn_cmov_one xs ys (by simpa using hlen)
        (fun z hz => ht z (List.mem_cons_of_mem _ hz))
      unfold bn_cmov at ih ⊢
      simp only [List.zip_cons_cons, List.map_cons, List.cons.injEq]
      refine ⟨?_, ih⟩
      have h1 : (2 ^ 32 - 1 % 2 ^ 32) % 2 ^ 32 = 0xFFFFFFFF := by norm_num
      rw [h1]
      have h2 : (0xFFFFFFFF : Nat) ^^^ 0xFFFFFFFF = 0 := Nat.xor_self _
      rw [h2]
      have h3 : x &&& 0xFFFFFFFF = x := by
        have : (0xFFFFFFFF : Nat) = 2 ^ 32 - 1 := by norm_num
        rw [this, Nat.and_pow_two_sub_one_eq_mod, Nat.mod_eq_of_lt hx]
      rw [h3, Nat.and_zero, Nat.or_zero]

theorem bn_cmov_zero : ∀ (t f : List Nat), t.length = f.length →
    (∀ z ∈ f, z < 2 ^ 32) → bn_cmov 0 t f = f
  | [], [], _, _ => rfl
  | x :: xs, y :: ys, hlen, hf => by
      have hy : y < 2 ^ 32 := hf y (List.mem_cons_self _ _)
      have ih := bn_cmov_zero xs ys (by simpa using hlen)
        (fun z hz => hf z (List.mem_cons_of_mem _ hz))
      unfold bn_cmov at ih ⊢
      simp only [List.zip_cons_cons, List.map_cons, List.cons.injEq]
      refine ⟨?_, ih⟩
      have h1 : (2 ^ 32 - 0 % 2 ^ 32) % 2 ^ 32 = 0 := by norm_num
      rw [h1]
      have h2 : (0 : Nat) ^^^ 0xFFFFFFFF = 0xFFFFFFFF := by decide
      rw [h2]
      have h3 : y &&& 0xFFFFFFFF = y := by
        have : (0xFFFFFFFF : Nat) = 2 ^ 32 - 1 := by norm_num
        rw [this, Nat.and_pow_two_sub_one_eq_mod, Nat.mod_eq_of_lt hy]
      rw [h3, Nat.and_zero, Nat.zero_or]

/-! ## Correctness of `bn_mod` -/

theorem bn_mod_spec (x p : List Nat) (hx : Normal x) (hp : Normal p)
    (hlt : bnVal x < 2 * bnVal p) :
    Normal (bn_mod x p) ∧ bnVal (bn_mod x p) = bnVal x % bnVal p := by
  obtain ⟨hxlen, hxnorm⟩ := hx
  obtain ⟨hplen, hpnorm⟩ := hp
  obtain ⟨⟨hslen, hsnorm⟩, hsval⟩ := bn_subtract_spec x p ⟨hxlen, hxnorm⟩ ⟨hplen, hpnorm⟩
  have hexp : 30 * 9 = 270 := by norm_num
  have hX := bnVal_lt x hxnorm
  have hP := bnVal_lt p hpnorm
  rw [hxlen, hexp] at hX
  rw [hplen, hexp] at hP
  unfold bn_mod
  cases hflag : bn_is_less x p with
  | false =>
      -- flag = false : p ≤ x, the subtracted value is selected
      have hge : ¬ bnVal x < bnVal p := by
        intro hlt'
        have := (bn_is_less_iff x p (by omega) hxnorm hpnorm).mpr hlt'
        rw [hflag] at this
        exact Bool.false_ne_true this
      simp only [Bool.false_eq_true, if_false]
      rw [bn_cmov_zero x (bn_subtract x p) (by omega)
        (fun z hz => lt_trans (hsnorm z hz) (by norm_num))]
      have hval : (bnVal (bn_subtract x p) : ℤ) = bnVal x - bnVal p := by
        rw [hsval, Int.emod_eq_of_lt (by omega) (by omega)]
      refine ⟨⟨hslen, hsnorm⟩, ?_⟩
      have heq : bnVal (bn_subtract x p) = bnVal x - bnVal p := by omega
      rw [heq, Nat.mod_eq_sub_mod (by omega), Nat.mod_eq_of_lt (by omega)]
  | true =>
      -- flag = true : x < p, x itself is selected
      have hlt' : bnVal x < bnVal p :=
        (bn_is_less_iff x p (by omega) hxnorm hpnorm).mp hflag
      simp only [if_true]
      rw [bn_cmov_one x (bn_subtract x p) (by omega)
        (fun z hz => lt_trans (hxnorm z hz) (by norm_num))]
      exact ⟨⟨hxlen, hxnorm⟩, (Nat.mod_eq_of_lt hlt').symm⟩

/-! ## Claim C5: trichotomy of the comparison predicates -/

/-- **C5.** For every pair of normalized values `a` and `b`, exactly one
of `bn_is_less a b`, `bn_is_equal a b`, `bn_is_less b a` returns true
(trichotomy of the comparison predicates on normalized inputs). -/
theorem claim_C5 (a b : List Nat) (ha : Normal a) (hb : Normal b) :
    (bn_is_less a b).toNat + (bn_is_equal a b).toNat + (bn_is_less b a).toNat = 1 := by
  obtain ⟨halen, hanorm⟩ := ha
  obtain ⟨hblen, hbnorm⟩ := hb
  have hlab := bn_is_less_iff a b (by omega) hanorm hbnorm
  have hlba := bn_is_less_iff b a (by omega) hbnorm hanorm
  have heq := bn_is_equal_iff a b (by omega)
  rcases Nat.lt_trichotomy (bnVal a) (bnVal b) with h | h | h
  · have e1 : bn_is_less a b = true := hlab.mpr h
    have e2 : bn_is_equal a b = false := by
      cases he : bn_is_equal a b with
      | false => rfl
      | true => rw [heq.mp he] at h; omega
    have e3 : bn_is_less b a = false := by
      cases he : bn_is_less b a with
      | false => rfl
      | true => have := hlba.mp he; omega
    rw [e1, e2, e3]; rfl
  · have e2 : bn_is_equal a b = true :=
      heq.mpr (bnVal_inj a b (by omega) hanorm hbnorm h)
    have e1 : bn_is_less a b = false := by
      cases he : bn_is_less a b with
      | false => rfl
      | true => have := hlab.mp he; omega
    have e3 : bn_is_less b a = false := by
      cases he : bn_is_less b a with
      | false => rfl
      | true => have := hlba.mp he; omega
    rw [e1, e2, e3]; rfl
  · have e3 : bn_is_less b a = true := hlba.mpr h
    have e1 : bn_is_less a b = false := by
      cases he : bn_is_less a b with
      | false => rfl
      | true => have := hlab.mp he; omega
    have e2 : bn_is_equal a b = false := by
      cases he : bn_is_equal a b with
      | false => rfl
      | true => rw [heq.mp he] at h; omega
    rw [e1, e2, e3]; rfl

/-- Witness for C5 at a concrete input pair. -/
theorem claim_C5_witness :
    Normal [3, 0, 0, 0, 0, 0, 0, 0, 0] ∧ Normal [5, 0, 0, 0, 0, 0, 0, 0, 0] ∧
    (bn_is_less [3, 0, 0, 0, 0, 0, 0, 0, 0] [5, 0, 0, 0, 0, 0, 0, 0, 0]).toNat +
      (bn_is_equal [3, 0, 0, 0, 0, 0, 0, 0, 0] [5, 0, 0, 0, 0, 0, 0, 0, 0]).toNat +
      (bn_is_less [5, 0, 0, 0, 0, 0, 0, 0, 0] [3, 0, 0, 0, 0, 0, 0, 0, 0]).toNat = 1 :=
  ⟨by decide, by decide, claim_C5 _ _ (by decide) (by decide)⟩

/-! ## Claim C10: `bn_subtract` wraps modulo `2^270` -/

/-- **C10.** `bn_subtract` is total on all normalized inputs and wraps
modulo `2^270`: for every pair of normalized `a` and `b`,
`bn_subtract a b` produces the normalized value `(a - b) mod 2^270`,
with no error signalled when `a < b`; in particular it equals `a - b`
exactly whenever `a ≥ b`. -/
theorem claim_C10 (a b : List Nat) (ha : Normal a) (hb : Normal b) :
    Normal (bn_subtract a b) ∧
    (bnVal (bn_subtract a b) : ℤ) = ((bnVal a : ℤ) - bnVal b) % 2 ^ 270 ∧
    (bnVal b ≤ bnVal a → bnVal (bn_subtract a b) = bnVal a - bnVal b) := by
  obtain ⟨hnorm, hval⟩ := bn_subtract_spec a b ha hb
  refine ⟨hnorm, hval, fun hba => ?_⟩
  have hA := bnVal_lt a ha.2
  rw [ha.1] at hA
  have hlt : ((bnVal a : ℤ) - bnVal b) % 2 ^ 270 = (bnVal a : ℤ) - bnVal b := by
    rw [Int.emod_eq_of_lt (by omega) (by omega)]
  rw [hlt] at hval
  omega

/-- Witness for C10 at a concrete input pair (with `a < b`, exercising
the wrap-around case, via hypothesis `b ≤ a` swapped inputs). -/
theorem claim_C10_witness :
    Normal [7, 0, 0, 0, 0, 0, 0, 0, 0] ∧ Normal [5, 0, 0, 0, 0, 0, 0, 0, 0] ∧
    (Normal (bn_subtract [7, 0, 0, 0, 0, 0, 0, 0, 0] [5, 0, 0, 0, 0, 0, 0, 0, 0]) ∧
      (bnVal (bn_subtract [7, 0, 0, 0, 0, 0, 0, 0, 0] [5, 0, 0, 0, 0, 0, 0, 0, 0]) : ℤ) =
        ((bnVal [7, 0, 0, 0, 0, 0, 0, 0, 0] : ℤ) - bnVal [5, 0, 0, 0, 0, 0, 0, 0, 0]) % 2 ^ 270 ∧
      (bnVal [5, 0, 0, 0, 0, 0, 0, 0, 0] ≤ bnVal [7, 0, 0, 0, 0, 0, 0, 0, 0] →
        bnVal (bn_subtract [7, 0, 0, 0, 0, 0, 0, 0, 0] [5, 0, 0, 0, 0, 0, 0, 0, 0]) =
          bnVal [7, 0, 0, 0, 0, 0, 0, 0, 0] - bnVal [5, 0, 0, 0, 0, 0, 0, 0, 0])) :=
  ⟨by decide, by decide, claim_C10 _ _ (by decide) (by decide)⟩

end Bignum
